import Mathlib

/-!
# Verification of the `my_planner` console scheduler

Shallow embedding of `src/main.rs` (the whole repository is one file).
Strings are Lean `String`s (lists of `Char`); console input is a list of
typed lines (Rust's `read_line` appends the trailing `"\n"`, which the
embedding adds explicitly); the backing file is an `Option String`
(`none` = the file does not exist).  Fallible operations return
`Except`/`Option`; a `none` result of `Storage.save` models the panic of
the `parse().unwrap()` inside the `Ord` comparator.
-/

namespace Planner

/-- Rust `char::is_whitespace`: the Unicode `White_Space` code points. -/
def isRustWhitespace (c : Char) : Bool :=
  c.toNat ∈ [0x09, 0x0A, 0x0B, 0x0C, 0x0D, 0x20, 0x85, 0xA0, 0x1680,
    0x2000, 0x2001, 0x2002, 0x2003, 0x2004, 0x2005, 0x2006, 0x2007,
    0x2008, 0x2009, 0x200A, 0x2028, 0x2029, 0x202F, 0x205F, 0x3000]

/-- Remove the maximal run of whitespace at the end of the list (the
second half of Rust `str::trim`). -/
def dropTrailingWS : List Char → List Char
  | [] => []
  | c :: t =>
    match dropTrailingWS t with
    | [] => if isRustWhitespace c then [] else [c]
    | h :: t2 => c :: h :: t2

/-- Rust `str::trim` on the character list: the leading whitespace run,
then the trailing whitespace run, stripped. -/
def trimChars (l : List Char) : List Char :=
  dropTrailingWS (l.dropWhile isRustWhitespace)

/-- Rust `str::trim`. -/
def rustTrim (s : String) : String :=
  ⟨trimChars s.data⟩

/-- The filter in `Entry::try_from`:
`.filter(|c| matches!(c, '0'..='9' | ':'))`. -/
def cleanTime (s : String) : String :=
  ⟨s.data.filter (fun c => c.isDigit || c = ':')⟩

/-- Rust `str::split_once(sep)` for a one-character pattern: split at the
first occurrence of `sep`, or `none` when `sep` does not occur. -/
def splitOnceChar (sep : Char) : List Char → Option (List Char × List Char)
  | [] => none
  | c :: rest =>
    if c = sep then some ([], rest)
    else (splitOnceChar sep rest).map (fun p => (c :: p.1, p.2))

/-- Decimal value of a digit character. -/
def digitVal (c : Char) : Nat :=
  c.toNat - 48

/-- Value of a list of decimal digit characters, most significant first. -/
def natValOf (l : List Char) : Nat :=
  l.foldl (fun a c => a * 10 + digitVal c) 0

/-- Helper for `parseIntIn`: the sign has been consumed; at least one
decimal digit and nothing else must remain, and the signed value must
fit the range. -/
def parseDigitsVal (lo hi sign : Int) (digits : List Char) : Option Int :=
  if digits ≠ [] ∧ digits.all Char.isDigit then
    if lo ≤ sign * (natValOf digits : Int) ∧ sign * (natValOf digits : Int) ≤ hi then
      some (sign * (natValOf digits : Int))
    else none
  else none

/-- Rust `str::parse::<iN>` for the signed integer type with range
`[lo, hi]`: an optional single leading sign, then at least one decimal
digit and nothing else; fails on overflow (mathematical value outside
the type's range, which is exactly when Rust's checked accumulation
overflows). -/
def parseIntIn (lo hi : Int) (s : List Char) : Option Int :=
  match s with
  | [] => none
  | c :: rest =>
    if c = '+' then parseDigitsVal lo hi 1 rest
    else if c = '-' then parseDigitsVal lo hi (-1) rest
    else parseDigitsVal lo hi 1 (c :: rest)

/-- Rust `str::parse::<i8>`. -/
def parseI8 (s : String) : Option Int :=
  parseIntIn (-128) 127 s.data

/-- Rust `str::parse::<i32>`. -/
def parseI32 (s : String) : Option Int :=
  parseIntIn (-(2 ^ 31)) (2 ^ 31 - 1) s.data

/-- Rust `format!("{:0>2}", m)` applied to an already-rendered decimal
string: left-pad with `'0'` to width 2. -/
def pad2 (s : String) : String :=
  if s.length < 2 then ⟨List.replicate (2 - s.length) '0'⟩ ++ s else s

/-- `format!("{}:{:0>2}", hours, mins)`: the canonical time string. -/
def fmtTime (h m : Int) : String :=
  toString h ++ ":" ++ pad2 (toString m)

/-- A planner entry (struct `Entry { time, target }`). -/
structure Entry where
  time : String
  target : String
deriving DecidableEq, Repr

/-- The two error values the time-validation closure in
`Entry::try_from` can produce: `AppError::Msg("Неверное время.")` and a
propagated `ParseIntError`. -/
inductive TimeErr where
  | invalidTime
  | parseIntErr
deriving DecidableEq, Repr

/-- The inner closure of the time loop in `Entry::try_from`, applied to
the already-cleaned text: `split_once(':')`, parse both tokens as `i8`,
range-check `0..=23` / `0..=59`, and on success produce the canonical
`format!("{}:{:0>2}", hours, mins)` string. -/
def timeCheck (cleaned : String) : Except TimeErr String :=
  match splitOnceChar ':' cleaned.data with
  | some (hs, ms) =>
    match parseIntIn (-128) 127 hs, parseIntIn (-128) 127 ms with
    | some h, some m =>
      if ¬(0 ≤ h ∧ h ≤ 23) ∨ ¬(0 ≤ m ∧ m ≤ 59) then .error .invalidTime
      else .ok (fmtTime h m)
    | _, _ => .error .parseIntErr
  | none => .error .invalidTime

/-- Outcome of one iteration of the time-prompt loop on one typed line. -/
inductive AttemptRes where
  | cancel
  | reject (e : TimeErr)
  | accept (t : String)
deriving DecidableEq, Repr

/-- One iteration of the time loop in `Entry::try_from` on the typed
line `l` (`read_line` supplies the trailing newline): an empty trimmed
line raises `AppError::Exit` (`cancel`); otherwise the input is cleaned
and checked, a failure being printed and retried (`reject`). -/
def timeAttempt (l : String) : AttemptRes :=
  let raw := l ++ "\n"
  if (rustTrim raw).isEmpty then .cancel
  else
    match timeCheck (cleanTime raw) with
    | .ok t => .accept t
    | .error e => .reject e

/-- The only application error that escapes `Entry::try_from`:
`AppError::Exit` (the cancel signal). -/
inductive AppErr where
  | exit
deriving DecidableEq, Repr

/-- The `loop` over the time prompt in `Entry::try_from`, consuming
typed lines until one is accepted (`Ok`) or an empty line cancels
(`Err(AppError::Exit)`).  At end of input `read_line` reads an empty
string, which trims empty and cancels. -/
def readTimeLoop : List String → Except AppErr (String × List String)
  | [] => .error .exit
  | l :: rest =>
    match timeAttempt l with
    | .cancel => .error .exit
    | .accept t => .ok (t, rest)
    | .reject _ => readTimeLoop rest

/-- `Entry::try_from(&Stdin)`: read the task line, trim it, cancel when
it is empty, then run the time loop; on success the validated entry and
the unconsumed input are returned. -/
def entryTryFrom (input : List String) : Except AppErr (Entry × List String) :=
  match input with
  | [] => .error .exit
  | l :: rest =>
    let target := rustTrim (l ++ "\n")
    if target.isEmpty then .error .exit
    else
      match readTimeLoop rest with
      | .ok (t, rest2) => .ok (⟨t, target⟩, rest2)
      | .error e => .error e

/-- Rust `str::split("\n\n")` specialised to the literal separator used
by `Storage::read`: leftmost, non-overlapping matches of two consecutive
newlines cut the text. -/
def splitNN : List Char → List (List Char)
  | [] => [[]]
  | [c] => [[c]]
  | c :: d :: rest =>
    if c = '\n' ∧ d = '\n' then [] :: splitNN rest
    else
      match splitNN (d :: rest) with
      | [] => [[c]]
      | h :: t => (c :: h) :: t

/-- The `_terminator` part of `split_terminator`: a final empty
substring (produced by a trailing separator, or by the empty input) is
skipped. -/
def dropLastEmpty (l : List (List Char)) : List (List Char) :=
  match l.getLast? with
  | some [] => l.dropLast
  | _ => l

/-- `buf.split_terminator("\n\n")` as used by `Storage::read`. -/
def splitTermNN (s : String) : List String :=
  (dropLastEmpty (splitNN s.data)).map (⟨·⟩)

/-- The per-block parse of `Storage::read`:
`block.trim().split_once('\n')` mapped onto an `Entry`.  Used only to
state theorems; `readEntries` below is the loop itself. -/
def parseBlockE (b : String) : Option Entry :=
  (splitOnceChar '\n' (rustTrim b).data).map (fun p => ⟨⟨p.1⟩, ⟨p.2⟩⟩)

/-- The body of `Storage::read` on the file text: split on blank lines,
and for each block push the entry when `trim().split_once('\n')`
succeeds, silently skipping the block otherwise. -/
def readEntries (content : String) : List Entry :=
  (splitTermNN content).foldl
    (fun list block =>
      match splitOnceChar '\n' (rustTrim block).data with
      | some (t, g) => list ++ [⟨⟨t⟩, ⟨g⟩⟩]
      | none => list)
    []

/-- `Storage::read` including the bootstrap branch: when the file does
not exist it is created empty (`write(&self.path, "")?`) and an empty
list is returned; otherwise the text is parsed.  Returns the file state
after the call together with the entry list. -/
def storageRead (fs : Option String) : Option String × List Entry :=
  match fs with
  | none => (some "", [])
  | some c => (some c, readEntries c)

/-- The key computed by `Ord for Box<dyn EntryTrait>`:
`self.time().replace(':', "").parse::<i32>()` — `replace` of the
one-character pattern removes every colon. -/
def sortKey (e : Entry) : Option Int :=
  parseI32 ⟨e.time.data.filter (fun c => c ≠ ':')⟩

/-- The comparator's key with the `unwrap` made total (the `0` default
is only ever used behind `Storage.save`'s panic guard, which rules out
a failing `unwrap` exactly when the Rust comparator would panic). -/
def keyD (e : Entry) : Int :=
  (sortKey e).getD 0

/-- The ordering `Ord for Box<dyn EntryTrait>` induces, compared with
`a.cmp(&b)` on the parsed keys. -/
def entryLE (a b : Entry) : Prop :=
  keyD a ≤ keyD b

instance : DecidableRel entryLE :=
  fun a b => inferInstanceAs (Decidable (keyD a ≤ keyD b))

instance : IsTotal Entry entryLE :=
  ⟨fun a b => Int.le_total (keyD a) (keyD b)⟩

instance : IsTrans Entry entryLE :=
  ⟨fun _ _ _ => Int.le_trans⟩

/-- Rust `Vec::sort` is a stable sort by `Ord::cmp`; a stable sort under
a total, transitive comparison is extensionally unique, so the stable
`insertionSort` computes the same list. -/
def sortEntries (l : List Entry) : List Entry :=
  List.insertionSort entryLE l

/-- The serialization loop of `Storage::save`:
`write_fmt(format_args!("{}\n{}\n\n", entry.time(), entry.target()))`
for each entry in order. -/
def serializeEntry (e : Entry) : String :=
  e.time ++ "\n" ++ e.target ++ "\n\n"

/-- The whole file text `Storage::save` writes for a given list. -/
def serialize (l : List Entry) : String :=
  l.foldl (fun acc e => acc ++ serializeEntry e) ""

/-- `Storage::save`: read the current list, push the new entry, sort it
(stable, by the colon-stripped numeric key), truncate the file and write
every entry back.  `none` models the panic of the comparator's
`parse().unwrap()`: with at least two elements the sort must compare
every element, so it panics exactly when some key fails to parse (a
one-element list is never compared). -/
def storageSave (entry : Entry) (fs : Option String) : Option String :=
  if 2 ≤ ((storageRead fs).2 ++ [entry]).length ∧
      ((storageRead fs).2 ++ [entry]).any (fun e => (sortKey e).isNone) then none
  else some (serialize (sortEntries ((storageRead fs).2 ++ [entry])))

/-- Saving a list of entries in order, starting from a file state:
`none` when some save panics, otherwise the final file content. -/
def saveAll : List Entry → Option String → Option String
  | [], fs => some (fs.getD "")
  | e :: es, fs =>
    match storageSave e fs with
    | none => none
    | some c => saveAll es (some c)

/-- The `loop` of `AddEntryModel::exec` with fuel (each iteration
consumes at least one typed line, so `input.length + 1` fuel always
suffices): build an entry from the console, save it, repeat;
`Err(AppError::Exit)` is caught and turned into `Ok(())`.  Returns the
final file state, or `none` when a save panics. -/
def addLoop : Nat → List String → Option String → Option (Option String)
  | 0, _, _ => none
  | n + 1, input, fs =>
    match entryTryFrom input with
    | .error .exit => some fs
    | .ok (e, rest) =>
      match storageSave e fs with
      | none => none
      | some c => addLoop n rest (some c)

/-- `AddEntryModel::exec`: the add loop run on the whole console
script. -/
def addExec (input : List String) (fs : Option String) : Option (Option String) :=
  addLoop (input.length + 1) input fs

/-- A canonical time string: what the time parser emits for an in-range
hour and minute. -/
def canonicalTime (s : String) : Prop :=
  ∃ h m : Int, 0 ≤ h ∧ h ≤ 23 ∧ 0 ≤ m ∧ m ≤ 59 ∧ s = fmtTime h m

/-- The entries for which serialization round-trips through
`Storage::read`: both fields are non-empty single lines, the time does
not start with whitespace and the target does not end with whitespace
(the block is `trim`-stable, so the blank-line format reparses it
exactly). -/
def storableE (e : Entry) : Prop :=
  e.time.data ≠ [] ∧ e.target.data ≠ [] ∧
  '\n' ∉ e.time.data ∧ '\n' ∉ e.target.data ∧
  (∀ c, e.time.data.head? = some c → isRustWhitespace c = false) ∧
  (∀ c, e.target.data.getLast? = some c → isRustWhitespace c = false)

/-- Validity of an entry as claimed for the round-trip property, with
the one amendment the code forces: the single-line target must not end
in whitespace (a trailing-whitespace target is clipped — or, when
whitespace-only, dropped — by the `trim` in `Storage::read`). -/
def validEntry (e : Entry) : Prop :=
  canonicalTime e.time ∧ e.target ≠ "" ∧ '\n' ∉ e.target.data ∧
  (∀ c, e.target.data.getLast? = some c → isRustWhitespace c = false)

/-- The character block `Storage::save` writes for one entry. -/
def blockData (e : Entry) : List Char :=
  e.time.data ++ '\n' :: (e.target.data ++ ['\n', '\n'])

/-- The same block without its terminating blank line: what
`split_terminator("\n\n")` hands back to the block parser. -/
def innerBlock (e : Entry) : List Char :=
  e.time.data ++ '\n' :: e.target.data

/-- Push the parse result of one item onto an accumulator list, or keep
the accumulator when the parse fails (the loop body shape shared by
`Storage::read`). -/
def pushOpt {α β : Type} (f : α → Option β) (l : List β) (b : α) : List β :=
  match f b with
  | some x => l ++ [x]
  | none => l

/-! ## Character facts -/

theorem string_eq_iff_data {s t : String} : s = t ↔ s.data = t.data :=
  ⟨fun h => by rw [h], fun h => by cases s; cases t; simp_all⟩

theorem digit_toNat {c : Char} (h : c.isDigit = true) : 48 ≤ c.toNat ∧ c.toNat ≤ 57 := by
  simp [Char.isDigit, UInt32.le_def] at h
  simp [Char.toNat, UInt32.toNat]
  exact_mod_cast h

theorem digit_not_ws {c : Char} (h : c.isDigit = true) : isRustWhitespace c = false := by
  have := digit_toNat h
  simp [isRustWhitespace]
  omega

theorem digit_ne_colon {c : Char} (h : c.isDigit = true) : c ≠ ':' := by
  have := digit_toNat h
  intro hc; subst hc; exact absurd this (by decide)

theorem digit_ne_nl {c : Char} (h : c.isDigit = true) : c ≠ '\n' := by
  have := digit_toNat h
  intro hc; subst hc; exact absurd this (by decide)

theorem digit_or_colon_not_ws {c : Char} (h : c.isDigit = true ∨ c = ':') :
    isRustWhitespace c = false := by
  rcases h with h | h
  · exact digit_not_ws h
  · subst h; decide

/-! ## Trim lemmas -/

theorem dropWhile_head_false {p : Char → Bool} :
    ∀ {l : List Char} {c : Char} {t : List Char}, l.dropWhile p = c :: t → p c = false := by
  intro l
  induction l with
  | nil => intro c t h; simp [List.dropWhile] at h
  | cons a l ih =>
    intro c t h
    by_cases hp : p a
    · rw [List.dropWhile_cons_of_pos hp] at h; exact ih h
    · rw [List.dropWhile_cons_of_neg hp] at h
      cases h; simpa using hp

theorem mem_dropWhile_of_not {p : Char → Bool} {c : Char} :
    ∀ {l : List Char}, c ∈ l → p c = false → c ∈ l.dropWhile p := by
  intro l
  induction l with
  | nil => intro h; simp at h
  | cons a l ih =>
    intro hm hc
    by_cases hp : p a
    · rw [List.dropWhile_cons_of_pos hp]
      rcases List.mem_cons.1 hm with rfl | hm
      · rw [hp] at hc; cases hc
      · exact ih hm hc
    · rw [List.dropWhile_cons_of_neg hp]
      exact hm

theorem dropTrailingWS_eq_nil_iff :
    ∀ {l : List Char}, dropTrailingWS l = [] ↔ ∀ c ∈ l, isRustWhitespace c = true := by
  intro l
  induction l with
  | nil => simp [dropTrailingWS]
  | cons a l ih =>
    simp only [dropTrailingWS]
    constructor
    · intro h
      cases hd : dropTrailingWS l with
      | nil =>
        rw [hd] at h
        by_cases hw : isRustWhitespace a
        · intro c hc
          rcases List.mem_cons.1 hc with rfl | hc
          · exact hw
          · exact (ih.1 hd) c hc
        · simp [hw] at h
      | cons x xs => rw [hd] at h; simp at h
    · intro h
      have hl : dropTrailingWS l = [] := ih.2 (fun c hc => h c (List.mem_cons_of_mem a hc))
      rw [hl]
      simp [h a (List.mem_cons_self a l)]

theorem dropTrailingWS_head :
    ∀ {a : Char} {l : List Char} {c : Char} {t : List Char},
      dropTrailingWS (a :: l) = c :: t → c = a := by
  intro a l c t h
  simp only [dropTrailingWS] at h
  cases hd : dropTrailingWS l with
  | nil =>
    rw [hd] at h
    by_cases hw : isRustWhitespace a <;> simp [hw] at h
    exact h.1.symm
  | cons x xs => rw [hd] at h; cases h; rfl

theorem dropTrailingWS_getLast :
    ∀ {l : List Char} {c : Char} {t : List Char},
      dropTrailingWS l = c :: t → ∀ d, (c :: t).getLast? = some d → isRustWhitespace d = false := by
  intro l
  induction l with
  | nil => intro c t h; simp [dropTrailingWS] at h
  | cons a l ih =>
    intro c t h d hd
    simp only [dropTrailingWS] at h
    cases hdl : dropTrailingWS l with
    | nil =>
      rw [hdl] at h
      by_cases hw : isRustWhitespace a
      · simp [hw] at h
      · simp [hw] at h
        rcases h with ⟨rfl, rfl⟩
        simp at hd
        subst hd
        simpa using hw
    | cons x xs =>
      rw [hdl] at h
      cases h
      have : (x :: xs).getLast? = some d := by
        simpa [List.getLast?_cons_cons] using hd
      exact ih hdl d this

theorem dropTrailingWS_of_getLast {l : List Char} {d : Char}
    (hl : l.getLast? = some d) (hd : isRustWhitespace d = false) :
    dropTrailingWS l = l := by
  induction l with
  | nil => simp at hl
  | cons a l ih =>
    cases l with
    | nil =>
      simp at hl
      subst hl
      simp [dropTrailingWS, hd]
    | cons b t =>
      have hl2 : (b :: t).getLast? = some d := by
        simpa [List.getLast?_cons_cons] using hl
      have := ih hl2
      conv_lhs => rw [dropTrailingWS]
      rw [this]

theorem trimChars_ne_nil {l : List Char} {c : Char}
    (hm : c ∈ l) (hc : isRustWhitespace c = false) : trimChars l ≠ [] := by
  intro h
  unfold trimChars at h
  have hmem : c ∈ l.dropWhile isRustWhitespace := mem_dropWhile_of_not hm hc
  have := dropTrailingWS_eq_nil_iff.1 h c hmem
  rw [this] at hc; cases hc

theorem trimChars_stable {a : Char} {l : List Char} {d : Char}
    (ha : isRustWhitespace a = false)
    (hl : (a :: l).getLast? = some d) (hd : isRustWhitespace d = false) :
    trimChars (a :: l) = a :: l := by
  unfold trimChars
  rw [List.dropWhile_cons_of_neg (by simp [ha])]
  exact dropTrailingWS_of_getLast hl hd

theorem trimChars_head_not_ws {l : List Char} {c : Char} {t : List Char}
    (h : trimChars l = c :: t) : isRustWhitespace c = false := by
  unfold trimChars at h
  cases hd : l.dropWhile isRustWhitespace with
  | nil => rw [hd] at h; simp [dropTrailingWS] at h
  | cons a s =>
    rw [hd] at h
    have := dropTrailingWS_head h
    subst this
    exact dropWhile_head_false hd

theorem trimChars_getLast_not_ws {l r : List Char} (h : trimChars l = r) {d : Char}
    (hd : r.getLast? = some d) : isRustWhitespace d = false := by
  cases r with
  | nil => simp at hd
  | cons c t =>
    unfold trimChars at h
    exact dropTrailingWS_getLast h d hd

/-! ## `split_once` lemmas -/

theorem splitOnceChar_append {sep : Char} :
    ∀ {a : List Char}, sep ∉ a → ∀ (b : List Char),
      splitOnceChar sep (a ++ sep :: b) = some (a, b) := by
  intro a
  induction a with
  | nil => intro _ b; simp [splitOnceChar]
  | cons c a ih =>
    intro hna b
    have hc : c ≠ sep := fun h => hna (h ▸ List.mem_cons_self c a)
    have hna2 : sep ∉ a := fun h => hna (List.mem_cons_of_mem c h)
    show (if c = sep then some ([], a ++ sep :: b)
        else (splitOnceChar sep (a ++ sep :: b)).map (fun p => (c :: p.1, p.2))) = _
    rw [if_neg hc, ih hna2 b]
    rfl

theorem splitOnceChar_eq_some {sep : Char} :
    ∀ {l a b : List Char}, splitOnceChar sep l = some (a, b) →
      l = a ++ sep :: b ∧ sep ∉ a := by
  intro l
  induction l with
  | nil => intro a b h; simp [splitOnceChar] at h
  | cons c t ih =>
    intro a b h
    simp only [splitOnceChar] at h
    by_cases hc : c = sep
    · rw [if_pos hc] at h
      cases h
      subst hc
      simp
    · rw [if_neg hc] at h
      cases hs : splitOnceChar sep t with
      | none => rw [hs] at h; simp at h
      | some p =>
        rw [hs] at h
        simp at h
        rcases h with ⟨rfl, rfl⟩
        obtain ⟨hteq, hna⟩ := ih hs
        constructor
        · simp [hteq]
        · simp [hna]
          exact fun hcs => hc hcs.symm

theorem splitOnceChar_eq_none {sep : Char} :
    ∀ {l : List Char}, splitOnceChar sep l = none → sep ∉ l := by
  intro l
  induction l with
  | nil => intro _; simp
  | cons c t ih =>
    intro h
    simp only [splitOnceChar] at h
    by_cases hc : c = sep
    · rw [if_pos hc] at h; cases h
    · rw [if_neg hc] at h
      cases hs : splitOnceChar sep t with
      | none =>
        intro hm
        rcases List.mem_cons.1 hm with rfl | hm
        · exact hc rfl
        · exact ih hs hm
      | some p => rw [hs] at h; simp at h

/-! ## Decimal parsing lemmas -/

theorem natValOf_append (a b : List Char) :
    natValOf (a ++ b) = natValOf a * 10 ^ b.length + natValOf b := by
  have aux : ∀ (b : List Char) (i : Nat),
      b.foldl (fun a c => a * 10 + digitVal c) i = i * 10 ^ b.length + natValOf b := by
    intro b
    induction b with
    | nil => intro i; simp [natValOf]
    | cons c t ih =>
      intro i
      show t.foldl (fun a c => a * 10 + digitVal c) (i * 10 + digitVal c) = _
      rw [ih (i * 10 + digitVal c)]
      have hnv : natValOf (c :: t) = digitVal c * 10 ^ t.length + natValOf t := by
        show t.foldl (fun a c => a * 10 + digitVal c) (0 * 10 + digitVal c) = _
        rw [ih (0 * 10 + digitVal c)]
        ring
      rw [hnv]
      simp [List.length_cons]
      ring
  unfold natValOf
  rw [List.foldl_append]
  exact aux b (natValOf a)

theorem parseIntIn_digits {s : List Char} (hne : s ≠ []) (hd : s.all Char.isDigit = true)
    {lo hi : Int} (hlo : lo ≤ (natValOf s : Int)) (hhi : (natValOf s : Int) ≤ hi) :
    parseIntIn lo hi s = some ((natValOf s : Int)) := by
  cases s with
  | nil => cases hne rfl
  | cons c t =>
    have hcd : c.isDigit = true := by
      have := List.all_eq_true.1 hd c (List.mem_cons_self c t)
      simpa using this
    have hc1 : c ≠ '+' := by
      have := digit_toNat hcd
      intro hc; subst hc; exact absurd this (by decide)
    have hc2 : c ≠ '-' := by
      have := digit_toNat hcd
      intro hc; subst hc; exact absurd this (by decide)
    show (if c = '+' then _ else if c = '-' then _ else parseDigitsVal lo hi 1 (c :: t)) = _
    rw [if_neg hc1, if_neg hc2]
    unfold parseDigitsVal
    rw [if_pos ⟨by simp, hd⟩, if_pos ⟨by simpa using hlo, by simpa using hhi⟩]
    simp

theorem parseIntIn_some_digits {s : List Char}
    (hch : ∀ c ∈ s, c.isDigit = true ∨ c = ':') {lo hi v : Int}
    (h : parseIntIn lo hi s = some v) :
    s ≠ [] ∧ s.all Char.isDigit = true ∧ v = (natValOf s : Int) ∧ 0 ≤ v := by
  cases s with
  | nil =>
    unfold parseIntIn at h
    cases h
  | cons c t =>
    have hc1 : c ≠ '+' := by
      rcases hch c (List.mem_cons_self c t) with hcd | hcc
      · have := digit_toNat hcd
        intro hc; subst hc; exact absurd this (by decide)
      · intro hc; rw [hc] at hcc; cases hcc
    have hc2 : c ≠ '-' := by
      rcases hch c (List.mem_cons_self c t) with hcd | hcc
      · have := digit_toNat hcd
        intro hc; subst hc; exact absurd this (by decide)
      · intro hc; rw [hc] at hcc; cases hcc
    have h2 : parseDigitsVal lo hi 1 (c :: t) = some v := by
      have hu : parseIntIn lo hi (c :: t) =
          (if c = '+' then parseDigitsVal lo hi 1 t
            else if c = '-' then parseDigitsVal lo hi (-1) t
            else parseDigitsVal lo hi 1 (c :: t)) := rfl
      rw [hu, if_neg hc1, if_neg hc2] at h
      exact h
    unfold parseDigitsVal at h2
    by_cases hcond : (c :: t ≠ [] ∧ (c :: t).all Char.isDigit = true)
    · rw [if_pos hcond] at h2
      by_cases hrange : lo ≤ (1 : Int) * (natValOf (c :: t) : Int) ∧
          (1 : Int) * (natValOf (c :: t) : Int) ≤ hi
      · rw [if_pos hrange] at h2
        have hv : v = (1 : Int) * (natValOf (c :: t) : Int) := by
          cases h2; rfl
        refine ⟨by simp, hcond.2, ?_, ?_⟩
        · rw [hv]; ring
        · rw [hv]; positivity
      · rw [if_neg hrange] at h2; cases h2
    · rw [if_neg hcond] at h2; cases h2

/-! ## Decimal printing facts (finite domains, by computation) -/

theorem repr_hour_fact : ∀ n : Nat, n < 24 →
    ((Nat.repr n).data ≠ [] ∧ (Nat.repr n).data.all Char.isDigit = true ∧
      natValOf (Nat.repr n).data = n) := by decide

theorem pad2_minute_fact : ∀ n : Nat, n < 60 →
    ((pad2 (Nat.repr n)).data.length = 2 ∧ (pad2 (Nat.repr n)).data.all Char.isDigit = true ∧
      natValOf (pad2 (Nat.repr n)).data = n) := by decide

theorem int_toString_nonneg {h : Int} (hh : 0 ≤ h) : toString h = Nat.repr h.toNat := by
  cases h with
  | ofNat n => rfl
  | negSucc n => exact absurd hh (by simp)

theorem fmtTime_data {h m : Int} (hh : 0 ≤ h) (hm : 0 ≤ m) :
    (fmtTime h m).data =
      (Nat.repr h.toNat).data ++ ':' :: (pad2 (Nat.repr m.toNat)).data := by
  unfold fmtTime
  rw [int_toString_nonneg hh, int_toString_nonneg hm]
  rw [String.data_append, String.data_append]
  simp

theorem fmtTime_all_digit_or_colon {h m : Int} (hh0 : 0 ≤ h) (hh1 : h ≤ 23)
    (hm0 : 0 ≤ m) (hm1 : m ≤ 59) :
    ∀ c ∈ (fmtTime h m).data, c.isDigit = true ∨ c = ':' := by
  intro c hc
  rw [fmtTime_data hh0 hm0] at hc
  have hhn : h.toNat < 24 := by omega
  have hmn : m.toNat < 60 := by omega
  rcases List.mem_append.1 hc with hc | hc
  · exact Or.inl (by simpa using List.all_eq_true.1 (repr_hour_fact h.toNat hhn).2.1 c hc)
  · rcases List.mem_cons.1 hc with rfl | hc
    · exact Or.inr rfl
    · exact Or.inl (by simpa using List.all_eq_true.1 (pad2_minute_fact m.toNat hmn).2.1 c hc)

theorem sortKey_canonical {h m : Int} (hh0 : 0 ≤ h) (hh1 : h ≤ 23)
    (hm0 : 0 ≤ m) (hm1 : m ≤ 59) (tg : String) :
    sortKey ⟨fmtTime h m, tg⟩ = some (h * 100 + m) := by
  have hhn : h.toNat < 24 := by omega
  have hmn : m.toNat < 60 := by omega
  obtain ⟨hne, hdig, hval⟩ := repr_hour_fact h.toNat hhn
  obtain ⟨hlen2, hdig2, hval2⟩ := pad2_minute_fact m.toNat hmn
  have hfilter : (fmtTime h m).data.filter (fun c => c ≠ ':') =
      (Nat.repr h.toNat).data ++ (pad2 (Nat.repr m.toNat)).data := by
    rw [fmtTime_data hh0 hm0, List.filter_append]
    have f1 : (Nat.repr h.toNat).data.filter (fun c => c ≠ ':') = (Nat.repr h.toNat).data :=
      List.filter_eq_self.2 (fun c hc => by
        have := List.all_eq_true.1 hdig c hc
        simp [digit_ne_colon (by simpa using this)])
    have f2 : (':' :: (pad2 (Nat.repr m.toNat)).data).filter (fun c => c ≠ ':') =
        (pad2 (Nat.repr m.toNat)).data := by
      rw [List.filter_cons_of_neg (by simp)]
      exact List.filter_eq_self.2 (fun c hc => by
        have := List.all_eq_true.1 hdig2 c hc
        simp [digit_ne_colon (by simpa using this)])
    rw [f1, f2]
  show parseIntIn (-(2 ^ 31)) (2 ^ 31 - 1) ((fmtTime h m).data.filter (fun c => c ≠ ':')) = _
  rw [hfilter]
  have hval3 : natValOf ((Nat.repr h.toNat).data ++ (pad2 (Nat.repr m.toNat)).data) =
      h.toNat * 100 + m.toNat := by
    rw [natValOf_append, hlen2, hval, hval2]
    ring
  rw [parseIntIn_digits (by simp [hne]) (by simp [List.all_append, hdig, hdig2])
      (by rw [hval3]; omega) (by rw [hval3]; push_cast; omega)]
  have hcast : ((natValOf (h.toNat.repr.data ++ (pad2 m.toNat.repr).data) : Nat) : Int) =
      h * 100 + m := by
    rw [hval3]
    push_cast
    omega
  rw [hcast]

/-! ## Time-parser lemmas -/

theorem hour_no_leading_zero : ∀ n : Nat, n < 24 →
    ((Nat.repr n).data.head? = some '0' → n = 0) := by decide

theorem cleanTime_mem {s : String} {c : Char} (h : c ∈ (cleanTime s).data) :
    (c.isDigit = true ∨ c = ':') ∧ c ∈ s.data := by
  have h2 := h
  unfold cleanTime at h2
  simp only [List.mem_filter] at h2
  refine ⟨?_, h2.1⟩
  have := h2.2
  simp only [Bool.or_eq_true] at this
  rcases this with hd | hc
  · exact Or.inl hd
  · exact Or.inr (by simpa using hc)

theorem rustTrim_not_empty_of_clean {s : String} (h : (cleanTime s).data ≠ []) :
    (rustTrim s).isEmpty = false := by
  rcases List.exists_mem_of_ne_nil _ h with ⟨c, hc⟩
  obtain ⟨hcd, hcs⟩ := cleanTime_mem hc
  have hnotws : isRustWhitespace c = false := digit_or_colon_not_ws hcd
  have htrim : trimChars s.data ≠ [] := trimChars_ne_nil hcs hnotws
  cases he : (rustTrim s).isEmpty
  · rfl
  · exfalso
    have : rustTrim s = "" := (String.isEmpty_iff _).1 he
    have : trimChars s.data = [] := by
      have hd := string_eq_iff_data.1 this
      simpa [rustTrim] using hd
    exact htrim this

theorem timeCheck_ok {cleaned hs ms : String} {h m : Int}
    (hsplit : cleaned = hs ++ ":" ++ ms)
    (hh : parseI8 hs = some h) (hm : parseI8 ms = some m)
    (hh0 : 0 ≤ h) (hh1 : h ≤ 23) (hm0 : 0 ≤ m) (hm1 : m ≤ 59)
    (hchars : ∀ c ∈ cleaned.data, c.isDigit = true ∨ c = ':') :
    timeCheck cleaned = .ok (fmtTime h m) := by
  have hdata : cleaned.data = hs.data ++ ':' :: ms.data := by
    rw [string_eq_iff_data] at hsplit
    rw [hsplit, String.data_append, String.data_append]
    simp
  have hhs_chars : ∀ c ∈ hs.data, c.isDigit = true ∨ c = ':' := by
    intro c hc
    exact hchars c (by rw [hdata]; exact List.mem_append_left _ hc)
  obtain ⟨hne, hdig, hveq, hv0⟩ := parseIntIn_some_digits hhs_chars hh
  have hnc : ':' ∉ hs.data := by
    intro hmem
    have h2 : (':'.isDigit = true) := by simpa using List.all_eq_true.1 hdig ':' hmem
    exact absurd h2 (by decide)
  have hsplit2 : splitOnceChar ':' cleaned.data = some (hs.data, ms.data) := by
    rw [hdata]
    exact splitOnceChar_append hnc ms.data
  unfold timeCheck
  rw [hsplit2]
  show (match parseIntIn (-128) 127 hs.data, parseIntIn (-128) 127 ms.data with
    | some h, some m =>
      if ¬(0 ≤ h ∧ h ≤ 23) ∨ ¬(0 ≤ m ∧ m ≤ 59) then Except.error TimeErr.invalidTime
      else Except.ok (fmtTime h m)
    | _, _ => Except.error TimeErr.parseIntErr) = _
  rw [show parseIntIn (-128) 127 hs.data = some h from hh,
    show parseIntIn (-128) 127 ms.data = some m from hm]
  simp only
  rw [if_neg (by push_neg; exact ⟨⟨hh0, hh1⟩, hm0, hm1⟩)]

theorem timeCheck_ok_inv {cleaned t : String} (h : timeCheck cleaned = .ok t) :
    ∃ hr mr : Int, 0 ≤ hr ∧ hr ≤ 23 ∧ 0 ≤ mr ∧ mr ≤ 59 ∧ t = fmtTime hr mr := by
  unfold timeCheck at h
  cases hsp : splitOnceChar ':' cleaned.data with
  | none => rw [hsp] at h; cases h
  | some p =>
    obtain ⟨hs, ms⟩ := p
    rw [hsp] at h
    have h2 : (match parseIntIn (-128) 127 hs, parseIntIn (-128) 127 ms with
        | some hv, some mv =>
          if ¬(0 ≤ hv ∧ hv ≤ 23) ∨ ¬(0 ≤ mv ∧ mv ≤ 59)
            then Except.error TimeErr.invalidTime
            else Except.ok (fmtTime hv mv)
        | _, _ => Except.error TimeErr.parseIntErr) = Except.ok t := h
    cases hp1 : parseIntIn (-128) 127 hs with
    | none => rw [hp1] at h2; cases h2
    | some hr =>
      cases hp2 : parseIntIn (-128) 127 ms with
      | none => rw [hp1, hp2] at h2; cases h2
      | some mr =>
        rw [hp1, hp2] at h2
        simp only at h2
        by_cases hrange : ¬(0 ≤ hr ∧ hr ≤ 23) ∨ ¬(0 ≤ mr ∧ mr ≤ 59)
        · rw [if_pos hrange] at h2; cases h2
        · rw [if_neg hrange] at h2
          cases h2
          push_neg at hrange
          refine ⟨hr, mr, ?_, ?_, ?_, ?_, rfl⟩ <;> omega

theorem timeCheck_err {cleaned : String}
    (hbad : splitOnceChar ':' cleaned.data = none
      ∨ (∃ hs ms, splitOnceChar ':' cleaned.data = some (hs, ms) ∧
          (parseIntIn (-128) 127 hs = none ∨ parseIntIn (-128) 127 ms = none
            ∨ ∃ hv mv, parseIntIn (-128) 127 hs = some hv ∧
                parseIntIn (-128) 127 ms = some mv ∧
                (hv < 0 ∨ 23 < hv ∨ mv < 0 ∨ 59 < mv)))) :
    ∃ e, timeCheck cleaned = .error e := by
  unfold timeCheck
  rcases hbad with hnone | ⟨hs, ms, hsp, hrest⟩
  · rw [hnone]
    exact ⟨.invalidTime, rfl⟩
  · rw [hsp]
    have hred : ∀ r : Except TimeErr String,
        (match parseIntIn (-128) 127 hs, parseIntIn (-128) 127 ms with
          | some hv, some mv =>
            if ¬(0 ≤ hv ∧ hv ≤ 23) ∨ ¬(0 ≤ mv ∧ mv ≤ 59)
              then Except.error TimeErr.invalidTime
              else Except.ok (fmtTime hv mv)
          | _, _ => Except.error TimeErr.parseIntErr) = r →
        (match some (hs, ms) with
          | some (hs, ms) =>
            match parseIntIn (-128) 127 hs, parseIntIn (-128) 127 ms with
            | some hv, some mv =>
              if ¬(0 ≤ hv ∧ hv ≤ 23) ∨ ¬(0 ≤ mv ∧ mv ≤ 59)
                then Except.error TimeErr.invalidTime
                else Except.ok (fmtTime hv mv)
            | _, _ => Except.error TimeErr.parseIntErr
          | none => Except.error TimeErr.invalidTime) = r := fun r hr => hr
    rcases hrest with hp1 | hp2 | ⟨hv, mv, hp1, hp2, hout⟩
    · refine ⟨.parseIntErr, hred _ ?_⟩
      rw [hp1]
    · refine ⟨.parseIntErr, hred _ ?_⟩
      rw [hp2]
      cases parseIntIn (-128) 127 hs <;> rfl
    · refine ⟨.invalidTime, hred _ ?_⟩
      rw [hp1, hp2]
      simp only
      rw [if_pos (by omega)]

/-! ## Claim C1: valid time input is canonicalised -/

/-- C1: for every raw time line whose cleaned form (digits and colons
kept) is an hour token and a minute token separated by a colon, both
parsing as integers with hour in `[0, 23]` and minute in `[0, 59]`, the
time parser accepts on that attempt and returns exactly
`format!("{}:{:0>2}", hour, minute)` — the hour unpadded (no leading
zero except for `0` itself), the minute always exactly two digits. -/
theorem c1_time_parser_canonical (l hs ms : String) (h m : Int) (rest : List String)
    (hsplit : cleanTime (l ++ "\n") = hs ++ ":" ++ ms)
    (hh : parseI8 hs = some h) (hm : parseI8 ms = some m)
    (hh0 : 0 ≤ h) (hh1 : h ≤ 23) (hm0 : 0 ≤ m) (hm1 : m ≤ 59) :
    timeAttempt l = .accept (fmtTime h m) ∧
    readTimeLoop (l :: rest) = .ok (fmtTime h m, rest) ∧
    fmtTime h m = toString h ++ ":" ++ pad2 (toString m) ∧
    (pad2 (toString m)).data.length = 2 ∧
    ((toString h).data.head? = some '0' → h = 0) := by
  have hclean_ne : (cleanTime (l ++ "\n")).data ≠ [] := by
    rw [string_eq_iff_data] at hsplit
    rw [hsplit]
    rw [String.data_append]
    simp
  have htrim := rustTrim_not_empty_of_clean hclean_ne
  have hchars : ∀ c ∈ (cleanTime (l ++ "\n")).data, c.isDigit = true ∨ c = ':' :=
    fun c hc => (cleanTime_mem hc).1
  have hcheck := timeCheck_ok hsplit hh hm hh0 hh1 hm0 hm1 hchars
  have hatt : timeAttempt l = .accept (fmtTime h m) := by
    show (if (rustTrim (l ++ "\n")).isEmpty = true then AttemptRes.cancel
      else match timeCheck (cleanTime (l ++ "\n")) with
        | Except.ok t => AttemptRes.accept t
        | Except.error e => AttemptRes.reject e) = _
    rw [htrim]
    simp only [Bool.false_eq_true, if_false]
    rw [hcheck]
  refine ⟨hatt, ?_, rfl, ?_, ?_⟩
  · show (match timeAttempt l with
      | .cancel => Except.error AppErr.exit
      | .accept t => Except.ok (t, rest)
      | .reject _ => readTimeLoop rest) = _
    rw [hatt]
  · rw [int_toString_nonneg hm0]
    exact (pad2_minute_fact m.toNat (by omega)).1
  · rw [int_toString_nonneg hh0]
    intro hhead
    have := hour_no_leading_zero h.toNat (by omega) hhead
    omega

/-- C1 witness: the raw line `"9:5"` cleans to `"9" ++ ":" ++ "5"`,
both tokens parse in range, and the parser accepts with `"9:05"`. -/
theorem c1_witness :
    timeAttempt "9:5" = .accept (fmtTime 9 5) ∧
    readTimeLoop ["9:5"] = .ok (fmtTime 9 5, []) ∧
    fmtTime 9 5 = toString (9 : Int) ++ ":" ++ pad2 (toString (5 : Int)) ∧
    (pad2 (toString (5 : Int))).data.length = 2 ∧
    ((toString (9 : Int)).data.head? = some '0' → (9 : Int) = 0) :=
  c1_time_parser_canonical "9:5" "9" "5" 9 5 [] (by decide) (by decide) (by decide)
    (by norm_num) (by norm_num) (by norm_num) (by norm_num)

/-! ## Claim C2: malformed time input -/

/-- C2 counterexample: the raw line `" "` is a non-empty input whose
cleaned form contains no colon, so the claim says the parser rejects it
with an `InvalidTime` error; the code instead trims it to empty first
and raises the cancel signal (`AppError::Exit`), which aborts the whole
add-loop rather than re-prompting. -/
theorem c2_counterexample :
    cleanTime (" " ++ "\n") = "" ∧
    timeAttempt " " = .cancel ∧
    readTimeLoop [" ", "10:00"] = .error .exit ∧
    readTimeLoop ["abc", "10:00"] = .ok ("10:00", []) := by
  refine ⟨rfl, rfl, rfl, rfl⟩

/-- C2 (amended): for every raw time line that is non-empty *after
trimming whitespace*, if the cleaned form has no colon, or a token fails
integer parsing, or the hour is outside `0–23`, or the minute is outside
`0–59`, then the attempt rejects the input with an error (the
`InvalidTime` condition: `AppError::Msg` or a propagated
`ParseIntError`), no entry is produced from that line, and the loop
re-prompts on the remaining input.  (The original claim, stated for all
non-empty raw input, fails on whitespace-only lines, which cancel
instead — see the counterexample.) -/
theorem c2_invalid_time_rejected (l : String) (rest : List String)
    (hne : (rustTrim (l ++ "\n")).isEmpty = false)
    (hbad : splitOnceChar ':' (cleanTime (l ++ "\n")).data = none
      ∨ (∃ hs ms, splitOnceChar ':' (cleanTime (l ++ "\n")).data = some (hs, ms) ∧
          (parseIntIn (-128) 127 hs = none ∨ parseIntIn (-128) 127 ms = none
            ∨ ∃ hv mv, parseIntIn (-128) 127 hs = some hv ∧
                parseIntIn (-128) 127 ms = some mv ∧
                (hv < 0 ∨ 23 < hv ∨ mv < 0 ∨ 59 < mv)))) :
    (∃ e, timeAttempt l = .reject e) ∧
    readTimeLoop (l :: rest) = readTimeLoop rest := by
  obtain ⟨e, he⟩ := timeCheck_err hbad
  have hatt : timeAttempt l = .reject e := by
    show (if (rustTrim (l ++ "\n")).isEmpty = true then AttemptRes.cancel
      else match timeCheck (cleanTime (l ++ "\n")) with
        | Except.ok t => AttemptRes.accept t
        | Except.error e => AttemptRes.reject e) = _
    rw [hne]
    simp only [Bool.false_eq_true, if_false]
    rw [he]
  refine ⟨⟨e, hatt⟩, ?_⟩
  show (match timeAttempt l with
    | .cancel => Except.error AppErr.exit
    | .accept t => Except.ok (t, rest)
    | .reject _ => readTimeLoop rest) = _
  rw [hatt]

/-- C2 witness: `"25:00"` trims non-empty, both tokens parse, but the
hour is out of range, so the attempt rejects and the loop re-prompts. -/
theorem c2_witness :
    (∃ e, timeAttempt "25:00" = .reject e) ∧
    readTimeLoop ["25:00", "10:00"] = readTimeLoop ["10:00"] :=
  c2_invalid_time_rejected "25:00" ["10:00"] (by decide)
    (Or.inr ⟨['2', '5'], ['0', '0'], by decide,
      Or.inr (Or.inr ⟨25, 0, by decide, by decide, by omega⟩)⟩)

/-! ## Inversion lemmas for the input loop -/

theorem isEmpty_false_of_ne {s : String} (h : s ≠ "") : s.isEmpty = false := by
  cases he : s.isEmpty
  · rfl
  · exact absurd ((String.isEmpty_iff s).1 he) h

theorem ne_empty_of_isEmpty_false {s : String} (h : s.isEmpty = false) : s ≠ "" := by
  intro heq
  subst heq
  cases h

theorem timeAttempt_accept_inv {l t : String} (h : timeAttempt l = .accept t) :
    timeCheck (cleanTime (l ++ "\n")) = .ok t := by
  have h2 : (if (rustTrim (l ++ "\n")).isEmpty = true then AttemptRes.cancel
      else match timeCheck (cleanTime (l ++ "\n")) with
        | Except.ok tt => AttemptRes.accept tt
        | Except.error e => AttemptRes.reject e) = .accept t := h
  by_cases he : (rustTrim (l ++ "\n")).isEmpty = true
  · rw [if_pos he] at h2; cases h2
  · rw [if_neg he] at h2
    cases hc : timeCheck (cleanTime (l ++ "\n")) with
    | ok tt => rw [hc] at h2; cases h2; rfl
    | error e => rw [hc] at h2; cases h2

theorem readTimeLoop_ok_inv :
    ∀ {input : List String} {t : String} {rest : List String},
      readTimeLoop input = .ok (t, rest) →
      ∃ hr mr : Int, 0 ≤ hr ∧ hr ≤ 23 ∧ 0 ≤ mr ∧ mr ≤ 59 ∧ t = fmtTime hr mr := by
  intro input
  induction input with
  | nil => intro t rest h; cases h
  | cons l ls ih =>
    intro t rest h
    have h2 : (match timeAttempt l with
      | .cancel => Except.error AppErr.exit
      | .accept tt => Except.ok (tt, ls)
      | .reject _ => readTimeLoop ls) = Except.ok (t, rest) := h
    cases hatt : timeAttempt l with
    | cancel => rw [hatt] at h2; cases h2
    | accept tt =>
      rw [hatt] at h2
      cases h2
      exact timeCheck_ok_inv (timeAttempt_accept_inv hatt)
    | reject e => rw [hatt] at h2; exact ih h2

theorem entryTryFrom_ok_inv {input : List String} {e : Entry} {rest : List String}
    (h : entryTryFrom input = .ok (e, rest)) :
    e.target ≠ "" ∧
    ∃ hr mr : Int, 0 ≤ hr ∧ hr ≤ 23 ∧ 0 ≤ mr ∧ mr ≤ 59 ∧ e.time = fmtTime hr mr := by
  cases input with
  | nil => cases h
  | cons l ls =>
    have h2 : (if (rustTrim (l ++ "\n")).isEmpty = true then Except.error AppErr.exit
        else match readTimeLoop ls with
          | Except.ok (t, rest2) =>
              Except.ok ((⟨t, rustTrim (l ++ "\n")⟩ : Entry), rest2)
          | Except.error err => Except.error err) = .ok (e, rest) := h
    by_cases he : (rustTrim (l ++ "\n")).isEmpty = true
    · rw [if_pos he] at h2; cases h2
    · rw [if_neg he] at h2
      cases hrt : readTimeLoop ls with
      | error err => rw [hrt] at h2; cases h2
      | ok p =>
        obtain ⟨t, rest2⟩ := p
        rw [hrt] at h2
        cases h2
        refine ⟨ne_empty_of_isEmpty_false (Bool.not_eq_true _ ▸ he), ?_⟩
        exact readTimeLoop_ok_inv hrt

/-! ## Claim C8: read splits on blank lines and drops malformed blocks -/

theorem foldl_push_filterMap {α β : Type} (f : α → Option β) :
    ∀ (bl : List α) (acc : List β),
      bl.foldl (pushOpt f) acc = acc ++ bl.filterMap f := by
  intro bl
  induction bl with
  | nil => intro acc; simp
  | cons b t ih =>
    intro acc
    show t.foldl (pushOpt f) (pushOpt f acc b) = _
    cases hf : f b with
    | none =>
      have hstep : pushOpt f acc b = acc := by unfold pushOpt; rw [hf]
      rw [hstep, ih]
      simp [List.filterMap_cons, hf]
    | some x =>
      have hstep : pushOpt f acc b = acc ++ [x] := by unfold pushOpt; rw [hf]
      rw [hstep, ih]
      simp [List.filterMap_cons, hf]

theorem readEntries_eq_filterMap (c : String) :
    readEntries c = (splitTermNN c).filterMap parseBlockE := by
  unfold readEntries
  have hfun : (fun (list : List Entry) (block : String) =>
      match splitOnceChar '\n' (rustTrim block).data with
      | some (t, g) => list ++ [(⟨⟨t⟩, ⟨g⟩⟩ : Entry)]
      | none => list) = pushOpt parseBlockE := by
    funext list block
    unfold pushOpt parseBlockE
    cases splitOnceChar '\n' (rustTrim block).data with
    | none => rfl
    | some p => rfl
  rw [hfun]
  exact (foldl_push_filterMap parseBlockE (splitTermNN c) []).trans (List.nil_append _)

/-- C8: for every file content, `Storage::read` splits the text on
blank-line (`"\n\n"`) separators, keeps — in file order — exactly the
blocks whose trimmed form splits at a first newline into a time line
and a target remainder, and silently omits every other block without
raising an error (the result is total on all contents). -/
theorem c8_read_drops_malformed (c : String) :
    readEntries c = (splitTermNN c).filterMap parseBlockE :=
  readEntries_eq_filterMap c

/-! ## Claim C7: bootstrap idempotence -/

/-- C7: `Storage::read` on a missing file creates it empty and returns
the empty sequence; an immediate second `read` on the now-existing empty
file again returns the empty sequence and leaves the content as is. -/
theorem c7_bootstrap_idempotent :
    storageRead none = (some "", []) ∧ storageRead (some "") = (some "", []) :=
  ⟨rfl, rfl⟩

/-! ## Claim C6: the empty-input cancel signal ends the whole add-loop -/

/-- C6: an empty (after trimming) line at the task prompt raises
`AppError::Exit`; so does an empty line at the time prompt even under a
valid task; and whenever `Entry::try_from` returns that cancel signal,
`AddEntryModel::exec` terminates the entire add-loop as a normal
success, leaving the file untouched (the in-progress entry is
discarded, no further lines are consumed). -/
theorem c6_cancel_ends_add_loop :
    (∀ (t : String) (rest : List String), rustTrim (t ++ "\n") = "" →
      entryTryFrom (t :: rest) = .error .exit) ∧
    (∀ (t tl : String) (rest : List String), rustTrim (t ++ "\n") ≠ "" →
      rustTrim (tl ++ "\n") = "" →
      entryTryFrom (t :: tl :: rest) = .error .exit) ∧
    (∀ (input : List String) (fs : Option String),
      entryTryFrom input = .error .exit → addExec input fs = some fs) := by
  refine ⟨?_, ?_, ?_⟩
  · intro t rest h
    show (if (rustTrim (t ++ "\n")).isEmpty = true then Except.error AppErr.exit
        else match readTimeLoop rest with
          | Except.ok (tm, rest2) =>
              Except.ok ((⟨tm, rustTrim (t ++ "\n")⟩ : Entry), rest2)
          | Except.error err => Except.error err) = _
    rw [if_pos (by rw [h]; rfl)]
  · intro t tl rest hne h
    have hcancel : timeAttempt tl = .cancel := by
      show (if (rustTrim (tl ++ "\n")).isEmpty = true then AttemptRes.cancel
        else match timeCheck (cleanTime (tl ++ "\n")) with
          | Except.ok tt => AttemptRes.accept tt
          | Except.error e => AttemptRes.reject e) = _
      rw [if_pos (by rw [h]; rfl)]
    have hloop : readTimeLoop (tl :: rest) = .error .exit := by
      show (match timeAttempt tl with
        | .cancel => Except.error AppErr.exit
        | .accept tt => Except.ok (tt, rest)
        | .reject _ => readTimeLoop rest) = _
      rw [hcancel]
    show (if (rustTrim (t ++ "\n")).isEmpty = true then Except.error AppErr.exit
        else match readTimeLoop (tl :: rest) with
          | Except.ok (tm, rest2) =>
              Except.ok ((⟨tm, rustTrim (t ++ "\n")⟩ : Entry), rest2)
          | Except.error err => Except.error err) = _
    rw [if_neg (by simpa using isEmpty_false_of_ne hne), hloop]
  · intro input fs h
    show addLoop (input.length + 1) input fs = some fs
    have hstep : addLoop (input.length + 1) input fs =
        (match entryTryFrom input with
          | .error .exit => some fs
          | .ok (e, rest) =>
            match storageSave e fs with
            | none => none
            | some c => addLoop input.length rest (some c)) := rfl
    rw [hstep, h]

/-- C6 witness: concrete sessions — an empty task line, an empty time
line after a task, and the loop terminating successfully with the file
unchanged. -/
theorem c6_witness :
    entryTryFrom ["", "x"] = .error .exit ∧
    entryTryFrom ["task", " ", "9:30"] = .error .exit ∧
    addExec ["task2", " "] (some "abc") = some (some "abc") :=
  ⟨c6_cancel_ends_add_loop.1 "" ["x"] rfl,
   c6_cancel_ends_add_loop.2.1 "task" " " ["9:30"] (by decide) rfl,
   c6_cancel_ends_add_loop.2.2 ["task2", " "] (some "abc")
     (c6_cancel_ends_add_loop.2.1 "task2" " " [] (by decide) rfl)⟩

/-! ## Claim C9: digit-concatenation ordering -/

/-- C9: on canonical valid times the comparator's key — the time string
with the colon removed, parsed as `i32` — equals `hour * 100 + minute`
(for any targets; the target is never compared), and that key is
strictly monotone in chronological (hour, then minute) order. -/
theorem c9_digit_concat_order (h1 m1 h2 m2 : Int) (t1 t2 : String)
    (hb1 : 0 ≤ h1 ∧ h1 ≤ 23) (hb2 : 0 ≤ m1 ∧ m1 ≤ 59)
    (hb3 : 0 ≤ h2 ∧ h2 ≤ 23) (hb4 : 0 ≤ m2 ∧ m2 ≤ 59) :
    sortKey ⟨fmtTime h1 m1, t1⟩ = some (h1 * 100 + m1) ∧
    sortKey ⟨fmtTime h2 m2, t2⟩ = some (h2 * 100 + m2) ∧
    (h1 * 100 + m1 < h2 * 100 + m2 ↔ (h1 < h2 ∨ (h1 = h2 ∧ m1 < m2))) := by
  obtain ⟨hh1, hh2⟩ := hb1
  obtain ⟨hm1, hm2⟩ := hb2
  obtain ⟨hh3, hh4⟩ := hb3
  obtain ⟨hm3, hm4⟩ := hb4
  refine ⟨sortKey_canonical hh1 hh2 hm1 hm2 t1, sortKey_canonical hh3 hh4 hm3 hm4 t2, ?_⟩
  omega

/-- C9 witness: `"9:30"` keys to 930, `"14:05"` keys to 1405, and
930 < 1405 matches the chronological comparison. -/
theorem c9_witness :
    sortKey ⟨fmtTime 9 30, "a"⟩ = some 930 ∧
    sortKey ⟨fmtTime 14 5, "b"⟩ = some 1405 ∧
    ((9 : Int) * 100 + 30 < 14 * 100 + 5 ↔
      ((9 : Int) < 14 ∨ ((9 : Int) = 14 ∧ (30 : Int) < 5))) := by
  have h := c9_digit_concat_order 9 30 14 5 "a" "b"
    (by norm_num) (by norm_num) (by norm_num) (by norm_num)
  refine ⟨?_, ?_, h.2.2⟩
  · rw [h.1]; norm_num
  · rw [h.2.1]; norm_num

/-! ## Claim C10: the comparator's unwrap -/

/-- C10: `save` sorts with a comparator that does
`time.replace(':', "").parse::<i32>().unwrap()`; when every entry in
the list (the file's re-hydrated entries plus the pushed one) has a
parseable key the save cannot panic, and there are file contents
accepted by `read` — here a block whose first line is `"abc"` — on
which a subsequent save reaches the failing unwrap and panics. -/
theorem c10_save_unwrap_panic :
    (∀ (fs : Option String) (e : Entry),
        (∀ x ∈ (storageRead fs).2 ++ [e], (sortKey x).isSome = true) →
        (storageSave e fs).isSome = true) ∧
    storageSave ⟨"9:30", "x"⟩ (some "abc\ntask\n\n") = none := by
  constructor
  · intro fs e hall
    unfold storageSave
    rw [if_neg ?hg]
    · rfl
    case hg =>
      rintro ⟨-, hany⟩
      rw [List.any_eq_true] at hany
      obtain ⟨x, hx, hnone⟩ := hany
      have hsome := hall x hx
      cases hsk : sortKey x with
      | none => rw [hsk] at hsome; cases hsome
      | some v => rw [hsk] at hnone; cases hnone
  · rfl

/-- C10 witness: on an empty file and a canonical new entry every key
parses and the save succeeds. -/
theorem c10_witness : (storageSave ⟨"9:30", "x"⟩ (some "")).isSome = true :=
  c10_save_unwrap_panic.1 (some "") ⟨"9:30", "x"⟩ (by decide)

/-! ## Claim C5: entry validity -/

/-- C5 counterexample: `Storage::read` re-hydrates entries from
arbitrary file content without validation — the block `"garbage\nstuff"`
yields an `Entry` whose time is unparseable (its comparator key does not
exist), contradicting the claim that no operation ever produces an
entry with an out-of-range/unparseable time. -/
theorem c5_counterexample :
    readEntries "garbage\nstuff\n\n" = [⟨"garbage", "stuff"⟩] ∧
    sortKey ⟨"garbage", "stuff"⟩ = none :=
  ⟨rfl, rfl⟩

/-- C5 (amended): every entry built from keyboard input has a non-empty
(trimmed) target and a canonical in-range time whose comparator key
parses; every entry re-hydrated by `Storage::read` has a non-empty time
and a non-empty target — but, unlike the original claim, its time need
not be parseable or in range (see the counterexample). -/
theorem c5_entry_validity :
    (∀ (input : List String) (e : Entry) (rest : List String),
      entryTryFrom input = .ok (e, rest) →
      e.target ≠ "" ∧ ∃ hr mr : Int, 0 ≤ hr ∧ hr ≤ 23 ∧ 0 ≤ mr ∧ mr ≤ 59 ∧
        e.time = fmtTime hr mr ∧ sortKey e = some (hr * 100 + mr)) ∧
    (∀ (c : String) (e : Entry), e ∈ readEntries c → e.time ≠ "" ∧ e.target ≠ "") := by
  constructor
  · intro input e rest h
    obtain ⟨htg, hr, mr, hb1, hb2, hb3, hb4, htime⟩ := entryTryFrom_ok_inv h
    refine ⟨htg, hr, mr, hb1, hb2, hb3, hb4, htime, ?_⟩
    have hcanon := sortKey_canonical hb1 hb2 hb3 hb4 e.target
    calc sortKey e = sortKey ⟨e.time, e.target⟩ := rfl
      _ = sortKey ⟨fmtTime hr mr, e.target⟩ := by rw [htime]
      _ = some (hr * 100 + mr) := hcanon
  · intro c e hmem
    rw [readEntries_eq_filterMap] at hmem
    obtain ⟨b, hb, hpb⟩ := List.mem_filterMap.1 hmem
    unfold parseBlockE at hpb
    cases hsp : splitOnceChar '\n' (rustTrim b).data with
    | none => rw [hsp] at hpb; cases hpb
    | some p =>
      obtain ⟨t, g⟩ := p
      rw [hsp] at hpb
      cases hpb
      obtain ⟨hdata, hnin⟩ := splitOnceChar_eq_some hsp
      have htrim : trimChars b.data = t ++ '\n' :: g := hdata
      constructor
      · intro hteq
        have ht : t = [] := by
          have := string_eq_iff_data.1 hteq
          simpa using this
        subst ht
        have hhead := trimChars_head_not_ws (by simpa using htrim)
        cases hhead
      · intro hgeq
        have hg : g = [] := by
          have := string_eq_iff_data.1 hgeq
          simpa using this
        subst hg
        have hlast : (t ++ ['\n']).getLast? = some '\n' := List.getLast?_concat t
        have := trimChars_getLast_not_ws htrim hlast
        cases this

/-- C5 witness: a concrete session builds the entry `("9:05", "Buy
milk")` with non-empty target and parseable canonical time, and a
concrete read returns entries with non-empty fields. -/
theorem c5_witness :
    ((⟨"9:05", "Buy milk"⟩ : Entry).target ≠ "" ∧
      ∃ hr mr : Int, 0 ≤ hr ∧ hr ≤ 23 ∧ 0 ≤ mr ∧ mr ≤ 59 ∧
        (⟨"9:05", "Buy milk"⟩ : Entry).time = fmtTime hr mr ∧
        sortKey (⟨"9:05", "Buy milk"⟩ : Entry) = some (hr * 100 + mr)) ∧
    ((⟨"garbage", "stuff"⟩ : Entry).time ≠ "" ∧
      (⟨"garbage", "stuff"⟩ : Entry).target ≠ "") :=
  ⟨c5_entry_validity.1 ["Buy milk", "9:5"] ⟨"9:05", "Buy milk"⟩ [] rfl,
   c5_entry_validity.2 "garbage\nstuff\n\n" ⟨"garbage", "stuff"⟩ (by decide)⟩

/-! ## Claim C3: save keeps everything, sorted stably by time -/

theorem filter_orderedInsert_of_eq {x : Entry} {k : Int} (hx : keyD x = k) :
    ∀ l : List Entry,
      (List.orderedInsert entryLE x l).filter (fun e => keyD e == k)
        = x :: l.filter (fun e => keyD e == k) := by
  intro l
  induction l with
  | nil => simp [List.orderedInsert, hx]
  | cons b t ih =>
    show (if entryLE x b then x :: b :: t
        else b :: List.orderedInsert entryLE x t).filter (fun e => keyD e == k) = _
    by_cases hle : entryLE x b
    · rw [if_pos hle]
      rw [List.filter_cons_of_pos (by simp [hx])]
    · rw [if_neg hle]
      have hbk : (keyD b == k) = false := by
        unfold entryLE at hle
        simp only [not_le] at hle
        simp only [beq_eq_false_iff_ne, ne_eq]
        omega
      rw [List.filter_cons_of_neg (by simp [hbk]), ih,
        List.filter_cons_of_neg (by simp [hbk])]

theorem filter_orderedInsert_of_ne {x : Entry} {k : Int} (hx : keyD x ≠ k) :
    ∀ l : List Entry,
      (List.orderedInsert entryLE x l).filter (fun e => keyD e == k)
        = l.filter (fun e => keyD e == k) := by
  intro l
  induction l with
  | nil => simp [List.orderedInsert, hx]
  | cons b t ih =>
    show (if entryLE x b then x :: b :: t
        else b :: List.orderedInsert entryLE x t).filter (fun e => keyD e == k) = _
    by_cases hle : entryLE x b
    · rw [if_pos hle]
      rw [List.filter_cons_of_neg (by simp [hx])]
    · rw [if_neg hle]
      by_cases hbk : keyD b = k
      · rw [List.filter_cons_of_pos (by simp [hbk]), ih,
          List.filter_cons_of_pos (by simp [hbk])]
      · rw [List.filter_cons_of_neg (by simp [hbk]), ih,
          List.filter_cons_of_neg (by simp [hbk])]

theorem filter_sortEntries (l : List Entry) (k : Int) :
    (sortEntries l).filter (fun e => keyD e == k) = l.filter (fun e => keyD e == k) := by
  induction l with
  | nil => rfl
  | cons x t ih =>
    show (List.orderedInsert entryLE x
        (List.insertionSort entryLE t)).filter (fun e => keyD e == k) = _
    unfold sortEntries at ih
    by_cases hx : keyD x = k
    · rw [filter_orderedInsert_of_eq hx, ih, List.filter_cons_of_pos (by simp [hx])]
    · rw [filter_orderedInsert_of_ne hx, ih, List.filter_cons_of_neg (by simp [hx])]

/-- C3: whenever `Storage::save` succeeds, the written file text is the
serialization of a list that is a permutation of the previously stored
entries plus the new one, sorted ascending by the entry ordering, and —
the sort being stable and keyed on time only, never on target — entries
with equal time keys keep their pre-sort relative order (their
key-filtered subsequence is unchanged). -/
theorem c3_save_sorted_stable (fs : Option String) (e : Entry) (c : String)
    (h : storageSave e fs = some c) :
    ∃ l : List Entry,
      c = serialize l ∧
      l.Perm ((storageRead fs).2 ++ [e]) ∧
      l.Sorted entryLE ∧
      ∀ k : Int, l.filter (fun x => keyD x == k)
        = ((storageRead fs).2 ++ [e]).filter (fun x => keyD x == k) := by
  refine ⟨sortEntries ((storageRead fs).2 ++ [e]), ?_, ?_, ?_, ?_⟩
  · unfold storageSave at h
    by_cases hg : 2 ≤ ((storageRead fs).2 ++ [e]).length ∧
        ((storageRead fs).2 ++ [e]).any (fun x => (sortKey x).isNone) = true
    · rw [if_pos hg] at h; cases h
    · rw [if_neg hg] at h
      cases h
      rfl
  · exact List.perm_insertionSort entryLE _
  · exact List.sorted_insertionSort entryLE _
  · intro k
    exact filter_sortEntries _ k

/-- C3 witness: saving `("9:30", "x")` over a file holding
`("14:05", "y")` succeeds and writes the sorted pair. -/
theorem c3_witness :
    ∃ l : List Entry,
      "9:30\nx\n\n14:05\ny\n\n" = serialize l ∧
      l.Perm ((storageRead (some "14:05\ny\n\n")).2 ++ [(⟨"9:30", "x"⟩ : Entry)]) ∧
      l.Sorted entryLE ∧
      ∀ k : Int, l.filter (fun x => keyD x == k)
        = ((storageRead (some "14:05\ny\n\n")).2 ++ [(⟨"9:30", "x"⟩ : Entry)]).filter
            (fun x => keyD x == k) :=
  c3_save_sorted_stable (some "14:05\ny\n\n") ⟨"9:30", "x"⟩ "9:30\nx\n\n14:05\ny\n\n" (by decide)

/-! ## Serialization round-trip -/

theorem serializeEntry_data (e : Entry) : (serializeEntry e).data = blockData e := by
  unfold serializeEntry blockData
  rw [String.data_append, String.data_append, String.data_append]
  simp

theorem serialize_data (l : List Entry) :
    (serialize l).data = (l.map blockData).flatten := by
  have aux : ∀ (l : List Entry) (a : String),
      (l.foldl (fun acc e => acc ++ serializeEntry e) a).data
        = a.data ++ (l.map blockData).flatten := by
    intro l
    induction l with
    | nil => intro a; simp
    | cons e t ih =>
      intro a
      show (t.foldl (fun acc e => acc ++ serializeEntry e) (a ++ serializeEntry e)).data = _
      rw [ih (a ++ serializeEntry e), String.data_append, serializeEntry_data]
      simp [List.flatten_cons]
  exact (aux l "").trans (by simp)

theorem splitNN_ne_nil : ∀ l : List Char, splitNN l ≠ []
  | [] => by simp [splitNN]
  | [c] => by simp [splitNN]
  | c :: d :: rest => by
    show (if c = '\n' ∧ d = '\n' then [] :: splitNN rest
      else match splitNN (d :: rest) with
        | [] => [[c]]
        | h :: t => (c :: h) :: t) ≠ []
    by_cases hc : c = '\n' ∧ d = '\n'
    · rw [if_pos hc]; simp
    · rw [if_neg hc]
      cases hs : splitNN (d :: rest) <;> simp

theorem splitNN_append_noNL :
    ∀ (a : List Char), '\n' ∉ a → ∀ (s h : List Char) (t : List (List Char)),
      splitNN s = h :: t → splitNN (a ++ s) = (a ++ h) :: t
  | [], _, s, h, t, hs => by simpa using hs
  | c :: a, hna, s, h, t, hs => by
    have hc : c ≠ '\n' := fun hh => hna (hh ▸ List.mem_cons_self c a)
    have hna2 : '\n' ∉ a := fun hm => hna (List.mem_cons_of_mem c hm)
    have ih := splitNN_append_noNL a hna2 s h t hs
    cases has : a ++ s with
    | nil =>
      obtain ⟨ha, hsnil⟩ := List.append_eq_nil.1 has
      subst ha
      subst hsnil
      have h2 : ([] : List (List Char)) ++ [] = h :: t → False := by simp
      have hnil : splitNN ([] : List Char) = [[]] := rfl
      rw [hnil] at hs
      cases hs
      simp [splitNN]
    | cons d rest =>
      show splitNN (c :: (a ++ s)) = (c :: (a ++ h)) :: t
      rw [has]
      show (if c = '\n' ∧ d = '\n' then [] :: splitNN rest
        else match splitNN (d :: rest) with
          | [] => [[c]]
          | hh :: tt => (c :: hh) :: tt) = _
      rw [if_neg (fun hcd => hc hcd.1), ← has, ih]

theorem splitNN_block (tc g s : List Char)
    (hnt : '\n' ∉ tc) (hng : '\n' ∉ g) (hgne : g ≠ []) :
    splitNN (tc ++ '\n' :: (g ++ '\n' :: '\n' :: s)) = (tc ++ '\n' :: g) :: splitNN s := by
  have hinner : splitNN ('\n' :: (g ++ '\n' :: '\n' :: s)) = ('\n' :: g) :: splitNN s := by
    cases g with
    | nil => cases hgne rfl
    | cons e g2 =>
      have he : e ≠ '\n' := fun hh => hng (hh ▸ List.mem_cons_self e g2)
      show (if '\n' = '\n' ∧ e = '\n' then [] :: splitNN (g2 ++ '\n' :: '\n' :: s)
        else match splitNN (e :: (g2 ++ '\n' :: '\n' :: s)) with
          | [] => [['\n']]
          | hh :: tt => ('\n' :: hh) :: tt) = _
      rw [if_neg (fun hcd => he hcd.2)]
      have hsplit2 : splitNN ('\n' :: '\n' :: s) = [] :: splitNN s := by
        show (if '\n' = '\n' ∧ '\n' = '\n' then [] :: splitNN s
          else match splitNN ('\n' :: s) with
            | [] => [['\n']]
            | hh :: tt => ('\n' :: hh) :: tt) = _
        rw [if_pos ⟨rfl, rfl⟩]
      have hmid := splitNN_append_noNL (e :: g2) hng ('\n' :: '\n' :: s) [] (splitNN s) hsplit2
      rw [show e :: (g2 ++ '\n' :: '\n' :: s) = (e :: g2) ++ ('\n' :: '\n' :: s) by simp]
      rw [hmid]
      simp
  have hmain := splitNN_append_noNL tc hnt ('\n' :: (g ++ '\n' :: '\n' :: s))
    ('\n' :: g) (splitNN s) hinner
  simpa using hmain

theorem splitNN_blocks :
    ∀ (l : List Entry), (∀ e ∈ l, storableE e) →
      splitNN (l.map blockData).flatten = l.map innerBlock ++ [[]]
  | [], _ => by simp [splitNN]
  | e :: t, hst => by
    have hse := hst e (List.mem_cons_self e t)
    have iht := splitNN_blocks t (fun x hx => hst x (List.mem_cons_of_mem e hx))
    obtain ⟨htne, hgne, hnt, hng, hhead, hlast⟩ := hse
    have hshape : ((e :: t).map blockData).flatten
        = e.time.data ++ '\n' :: (e.target.data ++ '\n' :: '\n' :: (t.map blockData).flatten) := by
      show (blockData e ++ (t.map blockData).flatten) = _
      unfold blockData
      simp
    rw [hshape, splitNN_block _ _ _ hnt hng hgne, iht]
    show (innerBlock e) :: (t.map innerBlock ++ [[]]) = _
    simp

theorem parseBlockE_innerBlock {e : Entry} (h : storableE e) :
    parseBlockE ⟨innerBlock e⟩ = some e := by
  obtain ⟨htne, hgne, hnt, hng, hhead, hlast⟩ := h
  have htrim : trimChars (innerBlock e) = innerBlock e := by
    unfold innerBlock
    cases htd : e.time.data with
    | nil => cases htne htd
    | cons c ct =>
      obtain ⟨d, hd⟩ := Option.isSome_iff_exists.1 (List.getLast?_isSome.2 hgne)
      have hglast : (c :: (ct ++ '\n' :: e.target.data)).getLast? = some d := by
        rw [show c :: (ct ++ '\n' :: e.target.data)
            = (c :: ct ++ ['\n']) ++ e.target.data by simp]
        rw [List.getLast?_append_of_ne_nil _ hgne]
        exact hd
      have hstab := trimChars_stable (hhead c (by rw [htd]; rfl)) hglast (hlast d hd)
      simpa using hstab
  unfold parseBlockE
  rw [show (rustTrim ⟨innerBlock e⟩).data = trimChars (innerBlock e) from rfl, htrim]
  unfold innerBlock
  rw [splitOnceChar_append hnt e.target.data]
  rfl

theorem readEntries_serialize {l : List Entry} (h : ∀ e ∈ l, storableE e) :
    readEntries (serialize l) = l := by
  rw [readEntries_eq_filterMap]
  have hs : splitTermNN (serialize l) = l.map (fun e => (⟨innerBlock e⟩ : String)) := by
    unfold splitTermNN
    rw [serialize_data, splitNN_blocks l h]
    unfold dropLastEmpty
    rw [List.getLast?_concat, List.dropLast_concat]
    rw [List.map_map]
    rfl
  rw [hs, List.filterMap_map]
  have : ∀ (m : List Entry), (∀ e ∈ m, storableE e) →
      m.filterMap (parseBlockE ∘ fun e => (⟨innerBlock e⟩ : String)) = m := by
    intro m
    induction m with
    | nil => intro _; rfl
    | cons e t ih =>
      intro hm
      rw [List.filterMap_cons]
      have : (parseBlockE ∘ fun e => (⟨innerBlock e⟩ : String)) e = some e :=
        parseBlockE_innerBlock (hm e (List.mem_cons_self e t))
      rw [this, ih (fun x hx => hm x (List.mem_cons_of_mem e hx))]
  exact this l h

/-! ## Claim C4: round-trip of valid entries -/

theorem getLast_cond_of (l : List Char)
    (h : l.getLast?.all (fun c => !isRustWhitespace c) = true) :
    ∀ c, l.getLast? = some c → isRustWhitespace c = false := by
  intro c hc
  rw [hc] at h
  simpa using h

theorem validEntry_storable {e : Entry} (h : validEntry e) : storableE e := by
  obtain ⟨⟨hr, mr, hb1, hb2, hb3, hb4, htime⟩, htg, hng, hlast⟩ := h
  have hall := fmtTime_all_digit_or_colon hb1 hb2 hb3 hb4
  have htchars : ∀ c ∈ e.time.data, c.isDigit = true ∨ c = ':' := by
    rw [htime]; exact hall
  refine ⟨?_, ?_, ?_, hng, ?_, hlast⟩
  · rw [htime, fmtTime_data hb1 hb3]
    simp
  · intro hd
    exact htg (string_eq_iff_data.2 hd)
  · intro hmem
    rcases htchars '\n' hmem with hd | hc
    · exact absurd (digit_toNat hd) (by decide)
    · cases hc
  · intro c hc
    have hcm : c ∈ e.time.data := by
      cases htd : e.time.data with
      | nil => rw [htd] at hc; cases hc
      | cons x xs =>
        rw [htd] at hc
        cases hc
        exact List.mem_cons_self c xs
    exact digit_or_colon_not_ws (htchars c hcm)

theorem validEntry_key {e : Entry} (h : validEntry e) : (sortKey e).isSome = true := by
  obtain ⟨⟨hr, mr, hb1, hb2, hb3, hb4, htime⟩, -, -, -⟩ := h
  have : sortKey e = some (hr * 100 + mr) := by
    calc sortKey e = sortKey ⟨e.time, e.target⟩ := rfl
      _ = sortKey ⟨fmtTime hr mr, e.target⟩ := by rw [htime]
      _ = some (hr * 100 + mr) := sortKey_canonical hb1 hb2 hb3 hb4 e.target
  rw [this]
  rfl

theorem saveAll_invariant :
    ∀ (es m : List Entry), (∀ e ∈ es, validEntry e) → (∀ e ∈ m, validEntry e) →
      ∃ mf : List Entry, saveAll es (some (serialize m)) = some (serialize mf) ∧
        mf.Perm (m ++ es) ∧ (∀ e ∈ mf, validEntry e) ∧
        (es ≠ [] → mf.Sorted entryLE) ∧ (es = [] → mf = m)
  | [], m, _, hm =>
    ⟨m, rfl, by simp, hm, fun hne => absurd rfl hne, fun _ => rfl⟩
  | e :: es, m, hes, hm => by
    have hve := hes e (List.mem_cons_self e es)
    have hread : (storageRead (some (serialize m))).2 = m := by
      show readEntries (serialize m) = m
      exact readEntries_serialize (fun x hx => validEntry_storable (hm x hx))
    have hall : ∀ x ∈ m ++ [e], validEntry x := by
      intro x hx
      rcases List.mem_append.1 hx with hx | hx
      · exact hm x hx
      · rcases List.mem_singleton.1 hx with rfl
        exact hve
    have hguard : ¬(2 ≤ ((storageRead (some (serialize m))).2 ++ [e]).length ∧
        ((storageRead (some (serialize m))).2 ++ [e]).any
          (fun x => (sortKey x).isNone) = true) := by
      rw [hread]
      rintro ⟨-, hany⟩
      rw [List.any_eq_true] at hany
      obtain ⟨x, hx, hxn⟩ := hany
      have hsome := validEntry_key (hall x hx)
      cases hsk : sortKey x with
      | none => rw [hsk] at hsome; cases hsome
      | some v => rw [hsk] at hxn; cases hxn
    have hsave : storageSave e (some (serialize m))
        = some (serialize (sortEntries (m ++ [e]))) := by
      unfold storageSave
      rw [if_neg hguard, hread]
    have hm2 : ∀ x ∈ sortEntries (m ++ [e]), validEntry x := by
      intro x hx
      exact hall x ((List.perm_insertionSort entryLE (m ++ [e])).subset hx)
    obtain ⟨mf, hsa, hperm, hvf, hsorted, hnil⟩ :=
      saveAll_invariant es (sortEntries (m ++ [e]))
        (fun x hx => hes x (List.mem_cons_of_mem e hx)) hm2
    refine ⟨mf, ?_, ?_, hvf, ?_, ?_⟩
    · show (match storageSave e (some (serialize m)) with
        | none => none
        | some c => saveAll es (some c)) = _
      rw [hsave]
      exact hsa
    · have hp2 : (sortEntries (m ++ [e]) ++ es).Perm ((m ++ [e]) ++ es) :=
        (List.perm_insertionSort entryLE (m ++ [e])).append_right es
      have hp3 : mf.Perm ((m ++ [e]) ++ es) := hperm.trans hp2
      simpa using hp3
    · intro _
      by_cases hes0 : es = []
      · subst hes0
        rw [hnil rfl]
        exact List.sorted_insertionSort entryLE (m ++ [e])
      · exact hsorted hes0
    · intro hcontra
      cases hcontra

/-- C4 counterexample: the entry `("9:30", " ")` has a canonical time
and a non-empty single-line target, so the claim says saving it into
empty storage and reading back returns it; but the `trim` in
`Storage::read` reduces its block to the single line `"9:30"`, the block
is dropped, and `read` returns the empty sequence instead of the one
saved entry. -/
theorem c4_counterexample :
    saveAll [⟨"9:30", " "⟩] (some "") = some "9:30\n \n\n" ∧
    readEntries "9:30\n \n\n" = [] ∧
    (⟨"9:30", " "⟩ : Entry).target ≠ "" ∧ '\n' ∉ (⟨"9:30", " "⟩ : Entry).target.data := by
  refine ⟨by decide, rfl, by decide, by decide⟩

/-- C4 (amended): for valid entries — canonical time, non-empty
single-line target *not ending in whitespace* (the amendment the
`trim` in `read` forces; see the counterexample) — saving them all into
initially empty storage succeeds, and `read` then returns exactly those
entries as a multiset (a permutation, under structural equality),
sorted ascending by the digit-concatenation time order. -/
theorem c4_roundtrip_sorted (es : List Entry) (h : ∀ e ∈ es, validEntry e) :
    ∃ c : String, saveAll es (some "") = some c ∧
      (readEntries c).Perm es ∧ (readEntries c).Sorted entryLE := by
  obtain ⟨mf, hsa, hperm, hvf, hsorted, hnil⟩ := saveAll_invariant es [] h (by simp)
  have hrt : readEntries (serialize mf) = mf :=
    readEntries_serialize (fun x hx => validEntry_storable (hvf x hx))
  refine ⟨serialize mf, hsa, ?_, ?_⟩
  · rw [hrt]
    simpa using hperm
  · rw [hrt]
    by_cases hes : es = []
    · subst hes
      rw [hnil rfl]
      exact List.sorted_nil
    · exact hsorted hes

/-- C4 witness: the two scenario entries round-trip and come back in
chronological order. -/
theorem c4_witness :
    ∃ c : String,
      saveAll [⟨"14:30", "Meeting"⟩, ⟨"9:00", "Call mom"⟩] (some "") = some c ∧
      (readEntries c).Perm [⟨"14:30", "Meeting"⟩, ⟨"9:00", "Call mom"⟩] ∧
      (readEntries c).Sorted entryLE := by
  apply c4_roundtrip_sorted
  intro e he
  rcases List.mem_cons.1 he with rfl | he2
  · exact ⟨⟨14, 30, by norm_num, by norm_num, by norm_num, by norm_num, by decide⟩,
      by decide, by decide, getLast_cond_of _ (by decide)⟩
  · rcases List.mem_singleton.1 he2 with rfl
    exact ⟨⟨9, 0, by norm_num, by norm_num, by norm_num, by norm_num, by decide⟩,
      by decide, by decide, getLast_cond_of _ (by decide)⟩

end Planner
